import Mathlib

/-!
Verification of the docs-mcp-poc documentation pipeline.

This file shallowly embeds the original logic of the repository's pipeline
scripts and proves the specification's claims about them:

* `15_supplementary_crawl.py` — the content validator / repair pass
  (`is_problematic_content`, `retry_scrape_url`, `process_file`, `main`);
* `2_index_docs.py` — deterministic identifiers and batch indexing of
  documents and chunks (`generate_uuid5` inputs, the two indexing loops);
* `serve_mcp.py` / `40_build_mcp.py` — the retrieval facade
  (`search_chunks`, `search_documents`, `fetch_document`);
* the 512/128 sliding-window token chunker configured in `2_index_docs.py`
  (the chunker implementation itself is the external chonkie library, so it
  is modelled from the spec).

Python strings are modelled as Lean `String` (a list of characters); Python
`in`, `str.strip`, `str.lower`, and f-string formatting of integers are
embedded as executable functions on character lists below.  External effects
(the web fetch, the vector store, the file system) are modelled as explicit
parameters or association lists.
-/

namespace DocsMcp

/-! ### Python string primitives -/

/-- Python `needle.startswith`-style check on character lists:
`pyStarts n h` is true iff `n` is an initial segment of `h`. -/
def pyStarts : List Char → List Char → Bool
  | [], _ => true
  | _ :: _, [] => false
  | a :: as, b :: bs => a == b && pyStarts as bs

/-- Python's substring test `needle in haystack` on character lists. -/
def pyIn (needle : List Char) : List Char → Bool
  | [] => pyStarts needle []
  | b :: bs => pyStarts needle (b :: bs) || pyIn needle bs

/-- Python `str.strip()` on a character list: remove leading and trailing
whitespace. -/
def strip (s : List Char) : List Char :=
  (((s.dropWhile Char.isWhitespace).reverse).dropWhile Char.isWhitespace).reverse

/-- Python `str.lower()` on a character list (ASCII case folding, which is
all the validator's marker list needs). -/
def lower (s : List Char) : List Char := s.map Char.toLower

/-! ### Content validator (`15_supplementary_crawl.py`, lines 14-50) -/

/-- The fixed list of security-challenge / error-page indicators from
`15_supplementary_crawl.py` lines 28-42. -/
def security_indicators : List String :=
  [ "Just a moment...",
    "Enable JavaScript and cookies to continue",
    "Please enable cookies",
    "Checking your browser",
    "Access denied",
    "403 Forbidden",
    "404 Not Found",
    "500 Internal Server Error",
    "Ray ID:",
    "Please verify you are a human",
    "Security check",
    "captcha",
    "CAPTCHA" ]

/-- `is_problematic_content` from `15_supplementary_crawl.py` lines 14-50:
`not content` check, then `len(content.strip()) < 50`, then a
case-insensitive substring scan over `security_indicators`. -/
def is_problematic_content (content : String) : Bool :=
  if content.data.isEmpty then true
  else if (strip content.data).length < 50 then true
  else security_indicators.any fun ind => pyIn (lower ind.data) (lower content.data)

/-- The marker list exactly as claim C2 states it (it differs from the
source's `security_indicators`). -/
def claimed_markers : List String :=
  [ "just a moment",
    "enable javascript and cookies",
    "checking your browser",
    "access denied",
    "403 forbidden",
    "404 not found",
    "500 internal server error",
    "ray id:",
    "verify you are a human",
    "security check",
    "captcha" ]

/-- The classifier as claim C2 states it, for comparison with
`is_problematic_content`: problematic iff empty or whitespace-only, or
stripped length below 50, or containing one of `claimed_markers`
case-insensitively. -/
def claimed_problematic (content : String) : Bool :=
  if content.data.isEmpty || (strip content.data).isEmpty then true
  else if (strip content.data).length < 50 then true
  else claimed_markers.any fun m => pyIn (lower m.data) (lower content.data)

example : is_problematic_content "" = true := by decide

example : is_problematic_content "short" = true := by decide

example :
    is_problematic_content
      "This page has plenty of perfectly ordinary documentation text in it." = false := by
  decide

example :
    is_problematic_content
      "Just a moment... this page is loading, please wait patiently here." = true := by
  decide

/-- C2 (counterexample): the source also treats "Please enable cookies" as a
security indicator (`15_supplementary_crawl.py` line 31), a marker absent
from the claim's fixed list, so a long clean-looking page containing that
phrase is classified problematic by the code but clean by the claim. -/
theorem C2_counterexample :
    is_problematic_content
      "Please enable cookies before you continue reading all of our documentation." = true ∧
    claimed_problematic
      "Please enable cookies before you continue reading all of our documentation." = false := by
  decide

/-- C2 (amended): the Validator classifies content as problematic iff it is
empty, or its whitespace-stripped length is below 50, or it contains one of
the source's thirteen security indicators case-insensitively (which include
"Please enable cookies", "Just a moment...", "Enable JavaScript and cookies
to continue" and "Please verify you are a human" in full); the rules apply
in that precedence and everything else is clean. -/
theorem C2_amended_classifier (c : String) :
    is_problematic_content c = true ↔
      (c.data = [] ∨ (strip c.data).length < 50 ∨
        ∃ m ∈ security_indicators, pyIn (lower m.data) (lower c.data) = true) := by
  unfold is_problematic_content
  split_ifs with h1 h2
  · simp only [List.isEmpty_iff] at h1
    simp [h1]
  · simp [h2]
  · simp only [List.isEmpty_iff] at h1
    simp [List.any_eq_true, h1, h2]

/-- C2 amended witness: a concrete long page containing no indicator is
classified clean. -/
theorem C2_amended_witness :
    is_problematic_content
      "This page has plenty of perfectly ordinary documentation text in it." = false ∧
    ¬("This page has plenty of perfectly ordinary documentation text in it." : String).data = [] := by
  constructor
  · have h := (C2_amended_classifier
      "This page has plenty of perfectly ordinary documentation text in it.")
    have : ¬(("This page has plenty of perfectly ordinary documentation text in it." : String).data = [] ∨
        (strip ("This page has plenty of perfectly ordinary documentation text in it." : String).data).length < 50 ∨
        ∃ m ∈ security_indicators,
          pyIn (lower m.data)
            (lower ("This page has plenty of perfectly ordinary documentation text in it." : String).data) = true) := by
      decide
    cases hb : is_problematic_content
        "This page has plenty of perfectly ordinary documentation text in it."
    · rfl
    · exact absurd (h.mp hb) this
  · decide

/-- C10: the 50-character minimum-length rule is applied to the
whitespace-stripped text (`len(content.strip()) < 50`), so content whose raw
length is at least 50 but whose stripped length is below 50 is still
classified problematic. -/
theorem C10_threshold_on_stripped (c : String)
    (_hraw : 50 ≤ c.data.length) (hstrip : (strip c.data).length < 50) :
    is_problematic_content c = true := by
  unfold is_problematic_content
  by_cases h1 : c.data.isEmpty = true
  · simp [h1]
  · simp [h1, hstrip]

/-- C10 witness: 10 letters followed by 45 spaces has raw length 55 but
stripped length 10, and is classified problematic. -/
theorem C10_witness :
    50 ≤ ("aaaaaaaaaa                                             " : String).data.length ∧
    (strip ("aaaaaaaaaa                                             " : String).data).length < 50 ∧
    is_problematic_content "aaaaaaaaaa                                             " = true :=
  ⟨by decide, by decide,
    C10_threshold_on_stripped "aaaaaaaaaa                                             "
      (by decide) (by decide)⟩

/-! ### Repair pass (`15_supplementary_crawl.py`, lines 53-132) -/

/-- `retry_scrape_url` from `15_supplementary_crawl.py` lines 53-87.  The
external crawler call (`AsyncWebCrawler.arun` with `CacheMode.BYPASS`) is
abstracted as `fetch : url → Option markdown`; `none` covers an exception,
an empty result list, or a missing result.  A successful fetch whose
markdown is itself problematic is discarded (lines 74-77). -/
def retry_scrape_url (fetch : String → Option String) (url : String) : Option String :=
  match fetch url with
  | none => none
  | some md => if is_problematic_content md then none else some md

/-- The first pass of `process_file` (lines 104-107): the urls whose stored
content is problematic, in snapshot order. -/
def problematic_urls (data : List (String × String)) : List String :=
  (data.filter fun e => is_problematic_content e.2).map Prod.fst

/-- Python dict assignment `data[url] = new_content` on an association
list. -/
def dictSet (data : List (String × String)) (k v : String) : List (String × String) :=
  data.map fun e => if e.1 = k then (k, v) else e

/-- Python dict lookup `data[url]` on an association list. -/
def dictGet (data : List (String × String)) (k : String) : Option String :=
  (data.find? fun e => decide (e.1 = k)).map Prod.snd

/-- The second pass of `process_file` (lines 115-129), instrumented with a
log of the urls passed to `retry_scrape_url`: each problematic url gets
exactly one retry; a truthy result replaces the dict entry
(`data[url] = new_content`), otherwise the original content is kept. -/
def retry_pass (fetch : String → Option String) :
    List String → List (String × String) → List (String × String) × List String
  | [], data => (data, [])
  | url :: rest, data =>
    let step :=
      match retry_scrape_url fetch url with
      | some nc => if nc = "" then data else dictSet data url nc
      | none => data
    let r := retry_pass fetch rest step
    (r.1, url :: r.2)

/-- `process_file` from `15_supplementary_crawl.py` lines 90-132: identify
problematic urls, then retry each once; returns the repaired snapshot
together with the log of re-fetched urls. -/
def process_file (fetch : String → Option String) (data : List (String × String)) :
    List (String × String) × List String :=
  let probs := problematic_urls data
  if probs.isEmpty then (data, []) else retry_pass fetch probs data

theorem retry_pass_log (fetch : String → Option String) (urls : List String)
    (data : List (String × String)) : (retry_pass fetch urls data).2 = urls := by
  induction urls generalizing data with
  | nil => rfl
  | cons url rest ih => simp [retry_pass, ih]

theorem mem_keys_of_mem_problematic {data : List (String × String)} {u : String}
    (h : u ∈ problematic_urls data) : u ∈ data.map Prod.fst :=
  ((data.filter_sublist.map Prod.fst).subset) h

theorem count_problematic (data : List (String × String))
    (hnd : (data.map Prod.fst).Nodup) (u c : String) (hmem : (u, c) ∈ data) :
    (problematic_urls data).count u = if is_problematic_content c then 1 else 0 := by
  induction data with
  | nil => cases hmem
  | cons e rest ih =>
    obtain ⟨v, d⟩ := e
    simp only [List.map_cons, List.nodup_cons] at hnd
    have hpcons : problematic_urls ((v, d) :: rest)
        = if is_problematic_content d then v :: problematic_urls rest
          else problematic_urls rest := by
      simp only [problematic_urls, List.filter_cons]
      by_cases h : is_problematic_content d
      · simp [h]
      · simp [h]
    rcases List.mem_cons.mp hmem with heq | hmemr
    · cases heq
      have hnotin : u ∉ problematic_urls rest := fun hin =>
        hnd.1 (mem_keys_of_mem_problematic hin)
      have hzero : (problematic_urls rest).count u = 0 := List.count_eq_zero.mpr hnotin
      rw [hpcons]
      by_cases h : is_problematic_content c
      · simp [h, List.count_cons, hzero]
      · simp [h, hzero]
    · have hukeys : u ∈ rest.map Prod.fst := List.mem_map.mpr ⟨(u, c), hmemr, rfl⟩
      have hvu : v ≠ u := fun hvu => hnd.1 (hvu ▸ hukeys)
      rw [hpcons]
      by_cases h : is_problematic_content d
      · simp only [h, if_true, List.count_cons]
        have : (v == u) = false := by simp [hvu]
        simp [this, ih hnd.2 hmemr]
      · simp [h, ih hnd.2 hmemr]

theorem dictGet_cons (e : String × String) (rest : List (String × String)) (u : String) :
    dictGet (e :: rest) u = if e.1 = u then some e.2 else dictGet rest u := by
  by_cases h : e.1 = u
  · simp [dictGet, List.find?, h]
  · simp [dictGet, List.find?, h]

theorem dictSet_cons (e : String × String) (rest : List (String × String)) (k v : String) :
    dictSet (e :: rest) k v = (if e.1 = k then (k, v) else e) :: dictSet rest k v := rfl

theorem dictSet_map_fst (data : List (String × String)) (k v : String) :
    (dictSet data k v).map Prod.fst = data.map Prod.fst := by
  induction data with
  | nil => rfl
  | cons e rest ih =>
    rw [dictSet_cons, List.map_cons, List.map_cons, ih]
    by_cases h : e.1 = k
    · rw [if_pos h]; rw [h]
    · rw [if_neg h]

theorem dictGet_dictSet_self {data : List (String × String)} {u : String}
    (hu : u ∈ data.map Prod.fst) (v : String) :
    dictGet (dictSet data u v) u = some v := by
  induction data with
  | nil => cases hu
  | cons e rest ih =>
    rw [dictSet_cons, dictGet_cons]
    by_cases h : e.1 = u
    · rw [if_pos h]; simp
    · rw [if_neg h, if_neg h]
      apply ih
      have hu' := hu
      rw [List.map_cons] at hu'
      rcases List.mem_cons.mp hu' with heq | hur
      · exact absurd heq.symm h
      · exact hur

theorem dictGet_dictSet_ne {w u : String} (h : w ≠ u)
    (data : List (String × String)) (v : String) :
    dictGet (dictSet data w v) u = dictGet data u := by
  induction data with
  | nil => rfl
  | cons e rest ih =>
    rw [dictSet_cons, dictGet_cons, dictGet_cons]
    by_cases he : e.1 = w
    · rw [if_pos he]
      have h1 : ¬((w, v).1 = u) := h
      have h2 : ¬(e.1 = u) := by rw [he]; exact h
      rw [if_neg h1, if_neg h2, ih]
    · rw [if_neg he]
      by_cases heu : e.1 = u
      · rw [if_pos heu, if_pos heu]
      · rw [if_neg heu, if_neg heu, ih]

theorem dictGet_of_mem_nodup {data : List (String × String)} {u c : String}
    (hnd : (data.map Prod.fst).Nodup) (hmem : (u, c) ∈ data) :
    dictGet data u = some c := by
  induction data with
  | nil => cases hmem
  | cons e rest ih =>
    simp only [List.map_cons, List.nodup_cons] at hnd
    rw [dictGet_cons]
    rcases List.mem_cons.mp hmem with heq | hmemr
    · cases heq; rw [if_pos rfl]
    · have hukeys : u ∈ rest.map Prod.fst := List.mem_map.mpr ⟨(u, c), hmemr, rfl⟩
      have heu : e.1 ≠ u := fun h => hnd.1 (h ▸ hukeys)
      rw [if_neg heu]
      exact ih hnd.2 hmemr

theorem retry_pass_untouched (fetch : String → Option String) {urls : List String}
    {u : String} (hu : u ∉ urls) (data : List (String × String)) :
    dictGet (retry_pass fetch urls data).1 u = dictGet data u := by
  induction urls generalizing data with
  | nil => rfl
  | cons w rest ih =>
    have hwu : w ≠ u := fun h => hu (h ▸ List.mem_cons_self w rest)
    have hur : u ∉ rest := fun h => hu (List.mem_cons_of_mem w h)
    simp only [retry_pass]
    cases hr : retry_scrape_url fetch w with
    | none => simpa using ih hur data
    | some nc =>
      by_cases hnc : nc = ""
      · simpa [hr, hnc] using ih hur data
      · simpa [hr, hnc, dictGet_dictSet_ne hwu] using ih hur (dictSet data w nc)

theorem retry_pass_value (fetch : String → Option String) {urls : List String}
    (hnd : urls.Nodup) {u : String} (hu : u ∈ urls)
    (data : List (String × String)) (hkey : u ∈ data.map Prod.fst) :
    dictGet (retry_pass fetch urls data).1 u =
      match retry_scrape_url fetch u with
      | some nc => if nc = "" then dictGet data u else some nc
      | none => dictGet data u := by
  induction urls generalizing data with
  | nil => cases hu
  | cons w rest ih =>
    simp only [List.nodup_cons] at hnd
    rcases List.mem_cons.mp hu with rfl | hur
    · simp only [retry_pass]
      cases hr : retry_scrape_url fetch u with
      | none => simpa [hr] using retry_pass_untouched fetch hnd.1 data
      | some nc =>
        by_cases hnc : nc = ""
        · simpa [hr, hnc] using retry_pass_untouched fetch hnd.1 data
        · have := retry_pass_untouched fetch hnd.1 (dictSet data u nc)
          simp only [hr, hnc, if_false]
          simpa [hr, hnc] using this.trans (dictGet_dictSet_self hkey nc)
    · have hwu : w ≠ u := fun h => hnd.1 (h ▸ hur)
      simp only [retry_pass]
      cases hr : retry_scrape_url fetch w with
      | none => simpa using ih hnd.2 hur data hkey
      | some nc =>
        by_cases hnc : nc = ""
        · simpa [hr, hnc] using ih hnd.2 hur data hkey
        · have hkey' : u ∈ (dictSet data w nc).map Prod.fst := by
            rw [dictSet_map_fst]; exact hkey
          have := ih hnd.2 hur (dictSet data w nc) hkey'
          simpa [hr, hnc, dictGet_dictSet_ne hwu] using this

theorem problematic_urls_nodup {data : List (String × String)}
    (hnd : (data.map Prod.fst).Nodup) : (problematic_urls data).Nodup :=
  ((data.filter_sublist.map Prod.fst)).nodup hnd

theorem mem_problematic_of_mem {data : List (String × String)} {u c : String}
    (hmem : (u, c) ∈ data) (hp : is_problematic_content c = true) :
    u ∈ problematic_urls data :=
  List.mem_map.mpr ⟨(u, c), List.mem_filter.mpr ⟨hmem, hp⟩, rfl⟩

theorem not_mem_problematic {data : List (String × String)} {u c : String}
    (hnd : (data.map Prod.fst).Nodup) (hmem : (u, c) ∈ data)
    (hp : is_problematic_content c = false) : u ∉ problematic_urls data := by
  intro hin
  rcases List.mem_map.mp hin with ⟨⟨u', c'⟩, hin', hq⟩
  rcases List.mem_filter.mp hin' with ⟨hmem', hp'⟩
  have hq' : u' = u := hq
  rw [hq'] at hmem'
  have h1 : dictGet data u = some c := dictGet_of_mem_nodup hnd hmem
  have h2 : dictGet data u = some c' := dictGet_of_mem_nodup hnd hmem'
  have : c = c' := by
    have := h1.symm.trans h2
    exact Option.some.inj this
  rw [← this] at hp'
  rw [hp] at hp'
  cases hp'

/-- C3: for every snapshot entry, the repair pass re-fetches its url exactly
once when its content is problematic and never otherwise, and the stored
text is replaced by the re-fetched markdown iff the fetch succeeds and the
new markdown is not itself problematic; in every other case the original
content is retained. -/
theorem C3_single_retry_and_replace (fetch : String → Option String)
    (data : List (String × String)) (hnd : (data.map Prod.fst).Nodup)
    (u c : String) (hmem : (u, c) ∈ data) :
    (process_file fetch data).2.count u
        = (if is_problematic_content c then 1 else 0) ∧
    dictGet (process_file fetch data).1 u
        = some (if is_problematic_content c then
            match fetch u with
            | none => c
            | some md => if is_problematic_content md then c else md
          else c) := by
  have hkey : u ∈ data.map Prod.fst := List.mem_map.mpr ⟨(u, c), hmem, rfl⟩
  by_cases hempty : (problematic_urls data).isEmpty
  · have hnil : problematic_urls data = [] := by
      cases h : problematic_urls data
      · rfl
      · rw [h] at hempty; cases hempty
    have hpc : is_problematic_content c = false := by
      cases h : is_problematic_content c
      · rfl
      · exact absurd (hnil ▸ mem_problematic_of_mem hmem h) (List.not_mem_nil u)
    constructor
    · simp [process_file, hempty, hpc]
    · simp [process_file, hempty, hpc, dictGet_of_mem_nodup hnd hmem]
  · constructor
    · have hlog : (process_file fetch data).2 = problematic_urls data := by
        simp [process_file, hempty, retry_pass_log]
      rw [hlog]
      exact count_problematic data hnd u c hmem
    · have hout : (process_file fetch data).1 = (retry_pass fetch (problematic_urls data) data).1 := by
        simp [process_file, hempty]
      rw [hout]
      by_cases hpc : is_problematic_content c = true
      · have hin := mem_problematic_of_mem hmem hpc
        have hval := retry_pass_value fetch (problematic_urls_nodup hnd) hin data hkey
        rw [hval]
        cases hf : fetch u with
        | none =>
          simp [retry_scrape_url, hf, hpc, dictGet_of_mem_nodup hnd hmem]
        | some md =>
          by_cases hmd : is_problematic_content md = true
          · simp [retry_scrape_url, hf, hmd, hpc, dictGet_of_mem_nodup hnd hmem]
          · have hne : md ≠ "" := by
              intro h
              rw [h] at hmd
              exact hmd (by decide)
            simp [retry_scrape_url, hf, hmd, hpc, hne]
      · have hpc' : is_problematic_content c = false := by
          cases h : is_problematic_content c
          · rfl
          · exact absurd h hpc
        have hnotin := not_mem_problematic hnd hmem hpc'
        rw [retry_pass_untouched fetch hnotin data]
        simp [hpc', dictGet_of_mem_nodup hnd hmem]

/-- C3 witness: a one-entry snapshot with short (problematic) content and a
fetch returning a long clean page: exactly one retry, content replaced. -/
theorem C3_witness :
    (process_file
        (fun _ => some "This page has plenty of perfectly ordinary documentation text in it.")
        [("https://docs.example.com/a", "short")]).2.count "https://docs.example.com/a" = 1 ∧
    dictGet (process_file
        (fun _ => some "This page has plenty of perfectly ordinary documentation text in it.")
        [("https://docs.example.com/a", "short")]).1 "https://docs.example.com/a"
      = some "This page has plenty of perfectly ordinary documentation text in it." := by
  have h := C3_single_retry_and_replace
    (fun _ => some "This page has plenty of perfectly ordinary documentation text in it.")
    [("https://docs.example.com/a", "short")] (by decide)
    "https://docs.example.com/a" "short" (by decide)
  have e1 : is_problematic_content "short" = true := by decide
  have e2 : is_problematic_content
      "This page has plenty of perfectly ordinary documentation text in it." = false := by decide
  rw [e1] at h
  simp only [if_true, e2, if_false] at h
  exact h

/-! ### Deterministic identifiers (`2_index_docs.py`, lines 45-68)

`generate_uuid5(namespace, name)` (weaviate's name-based UUIDv5) is a fixed
deterministic function of the pair `(namespace, name)`, so identifiers are
modelled by that pair itself; two calls collide exactly when their
namespace/name inputs coincide.  The name strings are the Python f-strings
`f"{vdb_name}-{path}"` and `f"{vdb_name}-{path}-chunk-{i}"`. -/

/-- Decimal digit character for `m % 10`, used to embed Python `str(i)`. -/
def digChar : Nat → Char
  | 0 => '0' | 1 => '1' | 2 => '2' | 3 => '3' | 4 => '4'
  | 5 => '5' | 6 => '6' | 7 => '7' | 8 => '8' | _ => '9'

/-- Fuel-driven decimal printer; `natChars_aux fuel n` is the digit string
of `n` whenever `n ≤ fuel`. -/
def natChars_aux : Nat → Nat → List Char
  | 0, n => [digChar (n % 10)]
  | fuel + 1, n =>
    if n < 10 then [digChar n] else natChars_aux fuel (n / 10) ++ [digChar (n % 10)]

/-- Python `str(i)` for a natural number: its decimal digit characters. -/
def natChars (n : Nat) : List Char := natChars_aux n n

example : natChars 0 = ['0'] := by decide
example : natChars 407 = ['4', '0', '7'] := by decide

theorem digChar_isDigit (m : Nat) : (digChar m).isDigit = true := by
  rcases m with _ | _ | _ | _ | _ | _ | _ | _ | _ | m <;> rfl

theorem digChar_toNat {m : Nat} (h : m < 10) : (digChar m).toNat - 48 = m := by
  interval_cases m <;> rfl

/-- Decimal value read back from a digit string. -/
def valN (l : List Char) : Nat := l.foldl (fun a c => a * 10 + (c.toNat - 48)) 0

theorem valN_aux (fuel : Nat) : ∀ n a, n ≤ fuel →
    (natChars_aux fuel n).foldl (fun a c => a * 10 + (c.toNat - 48)) a = a * 10 ^ (natChars_aux fuel n).length + n := by
  induction fuel with
  | zero =>
    intro n a h
    have hn : n = 0 := Nat.le_zero.mp h
    subst hn
    simp [natChars_aux, List.foldl]
    rfl
  | succ fuel ih =>
    intro n a h
    by_cases hn : n < 10
    · simp [natChars_aux, hn, List.foldl, digChar_toNat hn, pow_one]
    · have hrec : n / 10 ≤ fuel := by
        have h1 : n / 10 < n := Nat.div_lt_self (by omega) (by omega)
        omega
      simp only [natChars_aux, hn, if_false, List.foldl_append, List.length_append,
        List.length_singleton, List.foldl]
      rw [ih (n / 10) a hrec]
      have hm : n % 10 < 10 := Nat.mod_lt n (by omega)
      rw [digChar_toNat hm]
      have := Nat.div_add_mod n 10
      ring_nf
      omega

theorem valN_natChars (n : Nat) : valN (natChars n) = n := by
  unfold valN natChars
  rw [valN_aux n n 0 le_rfl]
  simp

theorem natChars_inj {a b : Nat} (h : natChars a = natChars b) : a = b := by
  have ha := valN_natChars a
  have hb := valN_natChars b
  rw [h] at ha
  omega

theorem natChars_aux_digits (fuel : Nat) : ∀ n, n ≤ fuel →
    ∀ c ∈ natChars_aux fuel n, c.isDigit = true := by
  induction fuel with
  | zero =>
    intro n _ c hc
    simp only [natChars_aux, List.mem_singleton] at hc
    subst hc
    exact digChar_isDigit _
  | succ fuel ih =>
    intro n h c hc
    by_cases hn : n < 10
    · simp only [natChars_aux, hn, if_true, List.mem_singleton] at hc
      subst hc
      exact digChar_isDigit _
    · have hrec : n / 10 ≤ fuel := by
        have h1 : n / 10 < n := Nat.div_lt_self (by omega) (by omega)
        omega
      simp only [natChars_aux, hn, if_false, List.mem_append, List.mem_singleton] at hc
      rcases hc with hc | hc
      · exact ih (n / 10) hrec c hc
      · subst hc
        exact digChar_isDigit _

theorem natChars_digits (n : Nat) : ∀ c ∈ natChars n, c.isDigit = true :=
  natChars_aux_digits n n le_rfl

/-- The literal `-chunk-` separator of the chunk id f-string. -/
def sepChunk : List Char := ("-chunk-" : String).data

/-- uuid5 name of a Document (`2_index_docs.py` line 68). -/
def doc_uuid_name (product path : String) : List Char :=
  product.data ++ '-' :: path.data

/-- uuid5 name of a Chunk (`2_index_docs.py` line 53). -/
def chunk_uuid_name (product path : String) (i : Nat) : List Char :=
  product.data ++ '-' :: (path.data ++ (sepChunk ++ natChars i))

/-- Identifier under which an object is upserted: the `generate_uuid5`
namespace/name input pair, which determines the UUID. -/
structure ObjectId where
  space : String
  name : List Char
deriving DecidableEq

def doc_uuid (product path : String) : ObjectId :=
  ⟨"Documents", doc_uuid_name product path⟩

def chunk_uuid (product path : String) (i : Nat) : ObjectId :=
  ⟨"Chunks", chunk_uuid_name product path i⟩

theorem string_data_inj {a b : String} (h : a.data = b.data) : a = b := by
  cases a; cases b; cases h; rfl

theorem doc_uuid_inj {p u1 u2 : String} (h : doc_uuid p u1 = doc_uuid p u2) :
    u1 = u2 := by
  have hname : doc_uuid_name p u1 = doc_uuid_name p u2 := congrArg ObjectId.name h
  unfold doc_uuid_name at hname
  have h1 := List.append_cancel_left hname
  have h2 : u1.data = u2.data := by injection h1
  exact string_data_inj h2

theorem takeWhile_dropWhile_split (p : Char → Bool) (xs : List Char) (y : Char)
    (ys : List Char) (hx : ∀ x ∈ xs, p x = true) (hy : p y = false) :
    (xs ++ y :: ys).takeWhile p = xs ∧ (xs ++ y :: ys).dropWhile p = y :: ys := by
  induction xs with
  | nil => simp [List.takeWhile_cons, List.dropWhile_cons, hy]
  | cons x xs ih =>
    have hpx : p x = true := hx x (List.mem_cons_self x xs)
    have hx' : ∀ z ∈ xs, p z = true := fun z hz => hx z (List.mem_cons_of_mem x hz)
    rcases ih hx' with ⟨h1, h2⟩
    constructor
    · rw [List.cons_append, List.takeWhile_cons, if_pos hpx, h1]
    · rw [List.cons_append, List.dropWhile_cons, if_pos hpx, h2]

theorem digit_suffix_split {u1 u2 d1 d2 : List Char}
    (h1 : ∀ c ∈ d1, c.isDigit = true) (h2 : ∀ c ∈ d2, c.isDigit = true)
    (heq : u1 ++ (sepChunk ++ d1) = u2 ++ (sepChunk ++ d2)) : u1 = u2 ∧ d1 = d2 := by
  have hrev : d1.reverse ++ ('-' :: (("knuhc-" : String).data ++ u1.reverse))
      = d2.reverse ++ ('-' :: (("knuhc-" : String).data ++ u2.reverse)) := by
    have := congrArg List.reverse heq
    simp only [List.reverse_append] at this
    have hsep : sepChunk.reverse = '-' :: ("knuhc-" : String).data := by decide
    rw [hsep] at this
    simpa [List.append_assoc, List.cons_append] using this
  have hd1 : ∀ c ∈ d1.reverse, Char.isDigit c = true := fun c hc =>
    h1 c (List.mem_reverse.mp hc)
  have hd2 : ∀ c ∈ d2.reverse, Char.isDigit c = true := fun c hc =>
    h2 c (List.mem_reverse.mp hc)
  have hdash : Char.isDigit '-' = false := by decide
  have t1 := takeWhile_dropWhile_split Char.isDigit d1.reverse '-'
    (("knuhc-" : String).data ++ u1.reverse) hd1 hdash
  have t2 := takeWhile_dropWhile_split Char.isDigit d2.reverse '-'
    (("knuhc-" : String).data ++ u2.reverse) hd2 hdash
  have htake : d1.reverse = d2.reverse := by
    rw [← t1.1, ← t2.1, hrev]
  have hdrop : '-' :: (("knuhc-" : String).data ++ u1.reverse)
      = '-' :: (("knuhc-" : String).data ++ u2.reverse) := by
    rw [← t1.2, ← t2.2, hrev]
  constructor
  · have h3 : ("knuhc-" : String).data ++ u1.reverse = ("knuhc-" : String).data ++ u2.reverse := by
      injection hdrop
    have h4 := List.append_cancel_left h3
    exact List.reverse_injective h4
  · exact List.reverse_injective htake

theorem chunk_uuid_inj {p u1 u2 : String} {i1 i2 : Nat}
    (h : chunk_uuid p u1 i1 = chunk_uuid p u2 i2) : u1 = u2 ∧ i1 = i2 := by
  have hname : chunk_uuid_name p u1 i1 = chunk_uuid_name p u2 i2 :=
    congrArg ObjectId.name h
  unfold chunk_uuid_name at hname
  have h1 := List.append_cancel_left hname
  have h2 : u1.data ++ (sepChunk ++ natChars i1) = u2.data ++ (sepChunk ++ natChars i2) := by
    injection h1
  rcases digit_suffix_split (natChars_digits i1) (natChars_digits i2) h2 with ⟨hu, hd⟩
  exact ⟨string_data_inj hu, natChars_inj hd⟩

/-! ### The persistent store and the indexing loops (`2_index_docs.py`) -/

/-- Document properties written by the document indexing loop
(`2_index_docs.py` lines 62-67). -/
structure DocProps where
  product : String
  body : String
  path : String
deriving DecidableEq

/-- Chunk properties written by the chunk indexing loop
(`2_index_docs.py` lines 46-52). -/
structure ChunkProps where
  product : String
  chunk : String
  chunk_no : Nat
  path : String
deriving DecidableEq

/-- A vector-store collection with upsert-by-uuid semantics:
`batch.add_object(properties, uuid)` replaces the record with that uuid if
one exists and inserts it otherwise. -/
def upsert {π : Type} (σ : List (ObjectId × π)) (i : ObjectId) (p : π) :
    List (ObjectId × π) :=
  if i ∈ σ.map Prod.fst then σ.map (fun e => if e.1 = i then (i, p) else e)
  else σ ++ [(i, p)]

/-- The document indexing loop (`2_index_docs.py` lines 60-69): one upsert
per snapshot entry, keyed by `generate_uuid5("Documents", f"{product}-{path}")`. -/
def index_documents (product : String) :
    List (String × String) → List (ObjectId × DocProps) → List (ObjectId × DocProps)
  | [], σ => σ
  | e :: rest, σ =>
    index_documents product rest
      (upsert σ (doc_uuid product e.1) ⟨product, e.2, e.1⟩)

/-- The inner `enumerate(text_chunks)` loop (`2_index_docs.py` lines 45-54),
started at index `i`. -/
def add_chunks (product path : String) :
    Nat → List String → List (ObjectId × ChunkProps) → List (ObjectId × ChunkProps)
  | _, [], σ => σ
  | i, c :: cs, σ =>
    add_chunks product path (i + 1) cs
      (upsert σ (chunk_uuid product path i) ⟨product, c, i, path⟩)

/-- The chunk indexing loop (`2_index_docs.py` lines 38-56): chunking is the
external `chunker.chunk`, abstracted as `chunkFn` (with `Except.error`
modelling an exception raised while chunking, which the loop catches and
logs); a zero-chunk result is skipped (`continue`). -/
def index_chunks (chunkFn : String → Except String (List String)) (product : String) :
    List (String × String) → List (ObjectId × ChunkProps) → List (ObjectId × ChunkProps)
  | [], σ => σ
  | e :: rest, σ =>
    index_chunks chunkFn product rest
      (match chunkFn e.2 with
        | Except.error _ => σ
        | Except.ok cs => if cs.length = 0 then σ else add_chunks product e.1 0 cs σ)

theorem upsert_map_fst {π : Type} (σ : List (ObjectId × π)) (i : ObjectId) (p : π) :
    (upsert σ i p).map Prod.fst =
      if i ∈ σ.map Prod.fst then σ.map Prod.fst else σ.map Prod.fst ++ [i] := by
  unfold upsert
  by_cases h : i ∈ σ.map Prod.fst
  · rw [if_pos h, if_pos h, List.map_map]
    apply List.map_congr_left
    intro e _
    by_cases he : e.1 = i
    · simp [he]
    · simp [he]
  · rw [if_neg h, if_neg h, List.map_append]
    rfl

theorem upsert_nodup {π : Type} {σ : List (ObjectId × π)}
    (hnd : (σ.map Prod.fst).Nodup) (i : ObjectId) (p : π) :
    ((upsert σ i p).map Prod.fst).Nodup := by
  rw [upsert_map_fst]
  by_cases h : i ∈ σ.map Prod.fst
  · rw [if_pos h]; exact hnd
  · rw [if_neg h]
    exact List.nodup_append.mpr
      ⟨hnd, List.nodup_singleton i, List.disjoint_singleton.mpr h⟩

theorem mem_upsert_keys {π : Type} {σ : List (ObjectId × π)} {j : ObjectId}
    (hj : j ∈ σ.map Prod.fst) (i : ObjectId) (p : π) :
    j ∈ (upsert σ i p).map Prod.fst := by
  rw [upsert_map_fst]
  by_cases h : i ∈ σ.map Prod.fst
  · rw [if_pos h]; exact hj
  · rw [if_neg h]; exact List.mem_append.mpr (Or.inl hj)

theorem self_mem_upsert_keys {π : Type} (σ : List (ObjectId × π)) (i : ObjectId) (p : π) :
    i ∈ (upsert σ i p).map Prod.fst := by
  rw [upsert_map_fst]
  by_cases h : i ∈ σ.map Prod.fst
  · rw [if_pos h]; exact h
  · rw [if_neg h]
    exact List.mem_append.mpr (Or.inr (List.mem_singleton.mpr rfl))

theorem upsert_forall {π : Type} {P : ObjectId × π → Prop} {σ : List (ObjectId × π)}
    (hσ : ∀ e ∈ σ, P e) {i : ObjectId} {p : π} (hp : P (i, p)) :
    ∀ e ∈ upsert σ i p, P e := by
  intro e he
  unfold upsert at he
  by_cases h : i ∈ σ.map Prod.fst
  · rw [if_pos h] at he
    rcases List.mem_map.mp he with ⟨x, hx, hfx⟩
    by_cases hxi : x.1 = i
    · rw [if_pos hxi] at hfx
      rw [← hfx]; exact hp
    · rw [if_neg hxi] at hfx
      rw [← hfx]; exact hσ x hx
  · rw [if_neg h] at he
    rcases List.mem_append.mp he with he | he
    · exact hσ e he
    · rw [List.mem_singleton.mp he]; exact hp

theorem count_by_id {π : Type} {σ : List (ObjectId × π)}
    (hnd : (σ.map Prod.fst).Nodup) {i : ObjectId} (hmem : i ∈ σ.map Prod.fst) :
    σ.countP (fun e => decide (e.1 = i)) = 1 := by
  have h1 : σ.countP (fun e => decide (e.1 = i))
      = (σ.map Prod.fst).countP (fun k => decide (k = i)) := by
    rw [List.countP_map]
    rfl
  have h2 : (σ.map Prod.fst).countP (fun k => decide (k = i))
      = (σ.map Prod.fst).count i := by
    apply List.countP_congr
    intro k _
    constructor
    · intro h; simp at h; simp [h]
    · intro h; simp at h; simp [h]
  have hle : (σ.map Prod.fst).count i ≤ 1 := List.nodup_iff_count_le_one.mp hnd i
  have hge : 0 < (σ.map Prod.fst).count i := List.count_pos_iff.mpr hmem
  omega

/-! Document-side invariants. -/

theorem index_documents_keys_mono (product : String) (entries : List (String × String))
    {σ : List (ObjectId × DocProps)} {j : ObjectId} (hj : j ∈ σ.map Prod.fst) :
    j ∈ (index_documents product entries σ).map Prod.fst := by
  induction entries generalizing σ with
  | nil => exact hj
  | cons e rest ih => exact ih (mem_upsert_keys hj _ _)

theorem index_documents_mem_keys (product : String) {entries : List (String × String)}
    {u b : String} (hmem : (u, b) ∈ entries) (σ : List (ObjectId × DocProps)) :
    doc_uuid product u ∈ (index_documents product entries σ).map Prod.fst := by
  induction entries generalizing σ with
  | nil => cases hmem
  | cons e rest ih =>
    rcases List.mem_cons.mp hmem with heq | hmemr
    · cases heq
      exact index_documents_keys_mono product rest (self_mem_upsert_keys σ _ _)
    · exact ih hmemr _

theorem index_documents_nodup (product : String) (entries : List (String × String))
    {σ : List (ObjectId × DocProps)} (hnd : (σ.map Prod.fst).Nodup) :
    ((index_documents product entries σ).map Prod.fst).Nodup := by
  induction entries generalizing σ with
  | nil => exact hnd
  | cons e rest ih => exact ih (upsert_nodup hnd _ _)

/-- Every record in a store built by the document loop for `product` records
that product and is keyed by the uuid of its own `(product, path)`. -/
def DocWF (product : String) (σ : List (ObjectId × DocProps)) : Prop :=
  ∀ e ∈ σ, e.2.product = product ∧ e.1 = doc_uuid product e.2.path

theorem index_documents_wf (product : String) (entries : List (String × String))
    {σ : List (ObjectId × DocProps)} (hwf : DocWF product σ) :
    DocWF product (index_documents product entries σ) := by
  induction entries generalizing σ with
  | nil => exact hwf
  | cons e rest ih =>
    exact ih (upsert_forall hwf ⟨rfl, rfl⟩)

theorem doc_record_count {product u : String} {σ : List (ObjectId × DocProps)}
    (hnd : (σ.map Prod.fst).Nodup) (hwf : DocWF product σ)
    (hmem : doc_uuid product u ∈ σ.map Prod.fst) :
    σ.countP (fun e => decide (e.2.product = product ∧ e.2.path = u)) = 1 := by
  have hcong : σ.countP (fun e => decide (e.2.product = product ∧ e.2.path = u))
      = σ.countP (fun e => decide (e.1 = doc_uuid product u)) := by
    apply List.countP_congr
    intro e he
    rcases hwf e he with ⟨hprod, hid⟩
    simp only [decide_eq_true_eq]
    constructor
    · rintro ⟨-, hpath⟩
      rw [hid, hpath]
    · intro h
      refine ⟨hprod, ?_⟩
      rw [hid] at h
      exact doc_uuid_inj h
  rw [hcong]
  exact count_by_id hnd hmem

/-! Chunk-side invariants. -/

theorem add_chunks_keys_mono (product path : String) (i : Nat) (cs : List String)
    {σ : List (ObjectId × ChunkProps)} {j : ObjectId} (hj : j ∈ σ.map Prod.fst) :
    j ∈ (add_chunks product path i cs σ).map Prod.fst := by
  induction cs generalizing i σ with
  | nil => exact hj
  | cons c cs ih => exact ih _ (mem_upsert_keys hj _ _)

theorem add_chunks_mem_keys (product path : String) (i : Nat) {cs : List String}
    {k : Nat} (hk : k < cs.length) (σ : List (ObjectId × ChunkProps)) :
    chunk_uuid product path (i + k) ∈ (add_chunks product path i cs σ).map Prod.fst := by
  induction cs generalizing i k σ with
  | nil => cases hk
  | cons c cs ih =>
    cases k with
    | zero =>
      exact add_chunks_keys_mono product path (i + 1) cs (self_mem_upsert_keys σ _ _)
    | succ k =>
      have hk' : k < cs.length := Nat.lt_of_succ_lt_succ hk
      have := ih (i + 1) hk' (upsert σ (chunk_uuid product path i) ⟨product, c, i, path⟩)
      have harith : i + 1 + k = i + (k + 1) := by omega
      rw [harith] at this
      exact this

theorem index_chunks_keys_mono (chunkFn : String → Except String (List String))
    (product : String) (entries : List (String × String))
    {σ : List (ObjectId × ChunkProps)} {j : ObjectId} (hj : j ∈ σ.map Prod.fst) :
    j ∈ (index_chunks chunkFn product entries σ).map Prod.fst := by
  induction entries generalizing σ with
  | nil => exact hj
  | cons e rest ih =>
    apply ih
    cases hc : chunkFn e.2 with
    | error msg => simpa [hc] using hj
    | ok cs =>
      by_cases hlen : cs.length = 0
      · simpa [hc, hlen] using hj
      · simpa [hc, hlen] using add_chunks_keys_mono product e.1 0 cs hj

theorem index_chunks_mem_keys (chunkFn : String → Except String (List String))
    (product : String) {entries : List (String × String)} {u b : String}
    (hmem : (u, b) ∈ entries) {cs : List String} (hok : chunkFn b = Except.ok cs)
    {k : Nat} (hk : k < cs.length) (σ : List (ObjectId × ChunkProps)) :
    chunk_uuid product u k ∈ (index_chunks chunkFn product entries σ).map Prod.fst := by
  induction entries generalizing σ with
  | nil => cases hmem
  | cons e rest ih =>
    rcases List.mem_cons.mp hmem with heq | hmemr
    · cases heq
      have hlen : ¬(cs.length = 0) := by omega
      have hmem0 : chunk_uuid product u k ∈ (add_chunks product u 0 cs σ).map Prod.fst := by
        have := add_chunks_mem_keys product u 0 hk σ
        rwa [Nat.zero_add] at this
      apply index_chunks_keys_mono chunkFn product rest
      simpa [hok, hlen] using hmem0
    · exact ih hmemr _

theorem add_chunks_nodup (product path : String) (i : Nat) (cs : List String)
    {σ : List (ObjectId × ChunkProps)} (hnd : (σ.map Prod.fst).Nodup) :
    ((add_chunks product path i cs σ).map Prod.fst).Nodup := by
  induction cs generalizing i σ with
  | nil => exact hnd
  | cons c cs ih => exact ih _ (upsert_nodup hnd _ _)

theorem index_chunks_nodup (chunkFn : String → Except String (List String))
    (product : String) (entries : List (String × String))
    {σ : List (ObjectId × ChunkProps)} (hnd : (σ.map Prod.fst).Nodup) :
    ((index_chunks chunkFn product entries σ).map Prod.fst).Nodup := by
  induction entries generalizing σ with
  | nil => exact hnd
  | cons e rest ih =>
    apply ih
    cases hc : chunkFn e.2 with
    | error msg => exact hnd
    | ok cs =>
      by_cases hlen : cs.length = 0
      · simp [hlen]; exact hnd
      · simp only [hlen, if_false]
        exact add_chunks_nodup product e.1 0 cs hnd

/-- Every record in a store built by the chunk loop for `product` records
that product and is keyed by the uuid of its own `(product, path, chunk_no)`. -/
def ChunkWF (product : String) (σ : List (ObjectId × ChunkProps)) : Prop :=
  ∀ e ∈ σ, e.2.product = product ∧ e.1 = chunk_uuid product e.2.path e.2.chunk_no

theorem add_chunks_wf (product path : String) (i : Nat) (cs : List String)
    {σ : List (ObjectId × ChunkProps)} (hwf : ChunkWF product σ) :
    ChunkWF product (add_chunks product path i cs σ) := by
  induction cs generalizing i σ with
  | nil => exact hwf
  | cons c cs ih => exact ih _ (upsert_forall hwf ⟨rfl, rfl⟩)

theorem index_chunks_wf (chunkFn : String → Except String (List String))
    (product : String) (entries : List (String × String))
    {σ : List (ObjectId × ChunkProps)} (hwf : ChunkWF product σ) :
    ChunkWF product (index_chunks chunkFn product entries σ) := by
  induction entries generalizing σ with
  | nil => exact hwf
  | cons e rest ih =>
    apply ih
    cases hc : chunkFn e.2 with
    | error msg => exact hwf
    | ok cs =>
      by_cases hlen : cs.length = 0
      · simp [hlen]; exact hwf
      · simp only [hlen, if_false]
        exact add_chunks_wf product e.1 0 cs hwf

theorem chunk_record_count {product u : String} {k : Nat}
    {σ : List (ObjectId × ChunkProps)} (hnd : (σ.map Prod.fst).Nodup)
    (hwf : ChunkWF product σ) (hmem : chunk_uuid product u k ∈ σ.map Prod.fst) :
    σ.countP (fun e =>
      decide (e.2.product = product ∧ e.2.path = u ∧ e.2.chunk_no = k)) = 1 := by
  have hcong : σ.countP (fun e =>
        decide (e.2.product = product ∧ e.2.path = u ∧ e.2.chunk_no = k))
      = σ.countP (fun e => decide (e.1 = chunk_uuid product u k)) := by
    apply List.countP_congr
    intro e he
    rcases hwf e he with ⟨hprod, hid⟩
    simp only [decide_eq_true_eq]
    constructor
    · rintro ⟨-, hpath, hno⟩
      rw [hid, hpath, hno]
    · intro h
      rw [hid] at h
      rcases chunk_uuid_inj h with ⟨hpath, hno⟩
      exact ⟨hprod, hpath, hno⟩
  rw [hcong]
  exact count_by_id hnd hmem

/-- C1: the identifier of a Document record is a function of
`(product, path)` alone and that of a Chunk record of
`(product, path, chunk_no)` alone (both are built only from those values,
never from the body), so indexing the same snapshot twice from an empty
upsert-based store leaves exactly one Document record per `(product, path)`
and exactly one Chunk record per `(product, path, chunk_no)`. -/
theorem C1_idempotent_identity
    (p : String) (entries : List (String × String))
    (chunkFn : String → Except String (List String)) (u b : String)
    (hmem : (u, b) ∈ entries) :
    (index_documents p entries (index_documents p entries [])).countP
        (fun e => decide (e.2.product = p ∧ e.2.path = u)) = 1 ∧
    (∀ cs, chunkFn b = Except.ok cs → ∀ k, k < cs.length →
      (index_chunks chunkFn p entries (index_chunks chunkFn p entries [])).countP
          (fun e => decide (e.2.product = p ∧ e.2.path = u ∧ e.2.chunk_no = k)) = 1) := by
  constructor
  · apply doc_record_count
    · exact index_documents_nodup p entries
        (index_documents_nodup p entries (by simp))
    · exact index_documents_wf p entries
        (index_documents_wf p entries (by intro e he; cases he))
    · exact index_documents_mem_keys p hmem _
  · intro cs hok k hk
    apply chunk_record_count
    · exact index_chunks_nodup chunkFn p entries
        (index_chunks_nodup chunkFn p entries (by simp))
    · exact index_chunks_wf chunkFn p entries
        (index_chunks_wf chunkFn p entries (by intro e he; cases he))
    · exact index_chunks_mem_keys chunkFn p hmem hok hk _

/-- C1 witness: a one-page snapshot indexed twice, with a one-chunk chunker. -/
theorem C1_witness :
    (index_documents "weaviate" [("pa", "hello")]
        (index_documents "weaviate" [("pa", "hello")] [])).countP
        (fun e => decide (e.2.product = "weaviate" ∧ e.2.path = "pa")) = 1 ∧
    (index_chunks (fun s => Except.ok [s]) "weaviate" [("pa", "hello")]
        (index_chunks (fun s => Except.ok [s]) "weaviate" [("pa", "hello")] [])).countP
        (fun e =>
          decide (e.2.product = "weaviate" ∧ e.2.path = "pa" ∧ e.2.chunk_no = 0)) = 1 :=
  ⟨(C1_idempotent_identity "weaviate" [("pa", "hello")] (fun s => Except.ok [s])
      "pa" "hello" (by decide)).1,
   (C1_idempotent_identity "weaviate" [("pa", "hello")] (fun s => Except.ok [s])
      "pa" "hello" (by decide)).2 ["hello"] rfl 0 (by decide)⟩

/-- C4: a snapshot entry whose chunking yields zero chunks, or whose
chunking raises (caught and logged by the loop), contributes no chunk
records and leaves the processing of the remaining entries unchanged, while
its own Document record is still indexed by the separate document loop. -/
theorem C4_chunk_failure_isolated
    (chunkFn : String → Except String (List String)) (p u b : String)
    (rest entries : List (String × String)) (σ : List (ObjectId × ChunkProps))
    (hfail : chunkFn b = Except.ok [] ∨ ∃ msg, chunkFn b = Except.error msg)
    (hmem : (u, b) ∈ entries) :
    index_chunks chunkFn p ((u, b) :: rest) σ = index_chunks chunkFn p rest σ ∧
    (index_documents p entries []).countP
        (fun e => decide (e.2.product = p ∧ e.2.path = u)) = 1 := by
  constructor
  · show index_chunks chunkFn p rest
        (match chunkFn b with
          | Except.error _ => σ
          | Except.ok cs => if cs.length = 0 then σ else add_chunks p u 0 cs σ) = _
    rcases hfail with hok | ⟨msg, herr⟩
    · rw [hok]
      rfl
    · rw [herr]
  · apply doc_record_count
    · exact index_documents_nodup p entries (by simp)
    · exact index_documents_wf p entries (by intro e he; cases he)
    · exact index_documents_mem_keys p hmem _

/-- C4 witness: a zero-chunk entry at the head of a snapshot. -/
theorem C4_witness :
    index_chunks (fun _ => Except.ok []) "w" [("pa", "body")] []
        = index_chunks (fun _ => Except.ok []) "w" [] [] ∧
    (index_documents "w" [("pa", "body")] []).countP
        (fun e => decide (e.2.product = "w" ∧ e.2.path = "pa")) = 1 :=
  C4_chunk_failure_isolated (fun _ => Except.ok []) "w" "pa" "body" [] [("pa", "body")]
    [] (Or.inl rfl) (by decide)

/-! ### Retrieval facade (`serve_mcp.py`, `40_build_mcp.py`)

The store's `query.hybrid(query, limit, filters)` call is external: it is
modelled by an oracle `ranked`, the full relevance-ordered result list for
the query, of which the store returns the records passing the
product-equality filter, capped at `limit`.  The post-processing applied to
those hits is this repository's code. -/

/-- `query.hybrid` with an optional exact `product` filter and a `limit`. -/
def hybrid_hits {α : Type} (ranked : List α) (pOf : α → String)
    (product : Option String) (limit : Nat) : List α :=
  (match product with
    | none => ranked
    | some p => ranked.filter fun r => pOf r = p).take limit

/-- `search_chunks_generic` from `serve_mcp.py` lines 181-199 (also the
body of `search_chunks` in `40_build_mcp.py` lines 108-128): the hybrid
hits are returned unmodified. -/
def search_chunks_generic (ranked : List ChunkProps) (limit : Nat)
    (product : Option String) : List ChunkProps :=
  hybrid_hits ranked (fun r => r.product) product limit

/-- `search_documents_generic` from `serve_mcp.py` lines 221-236 (also the
body of `search_documents` in `40_build_mcp.py` lines 131-153): each hit's
body is replaced by `result["body"][:500] + "..."`. -/
def search_documents_generic (ranked : List DocProps) (limit : Nat)
    (product : Option String) : List DocProps :=
  (hybrid_hits ranked (fun r => r.product) product limit).map fun r =>
    { r with body := String.mk (r.body.data.take 500 ++ ("..." : String).data) }

/-- C6 (counterexample): `search_documents` returns
`body[:500] + "..."`, not exactly the first 500 characters of the stored
body: for a stored body "alpha" the returned body is "alpha...". -/
theorem C6_counterexample :
    (search_documents_generic [⟨"weaviate", "alpha", "p1"⟩] 10 none).map
        (fun r => r.body) = ["alpha..."] ∧
    ("alpha..." : String) ≠ String.mk (("alpha" : String).data.take 500) := by
  constructor
  · rfl
  · decide

/-- C6 (amended): every record returned by `search_documents` (with or
without a product filter) is a stored record whose `body` field has been
replaced by the first 500 characters of the stored body with "..."
appended; `product` and `path` are returned unchanged. -/
theorem C6_truncated_body (ranked : List DocProps) (limit : Nat)
    (product : Option String) (r : DocProps)
    (hr : r ∈ search_documents_generic ranked limit product) :
    ∃ s ∈ ranked, r.product = s.product ∧ r.path = s.path ∧
      r.body = String.mk (s.body.data.take 500 ++ ("..." : String).data) := by
  rcases List.mem_map.mp hr with ⟨s, hs, hrs⟩
  have hs' : s ∈ ranked := by
    have h1 : s ∈ (match product with
        | none => ranked
        | some p => ranked.filter fun r => r.product = p) :=
      (List.take_subset _ _) hs
    cases product with
    | none => exact h1
    | some p => exact (List.mem_filter.mp h1).1
  refine ⟨s, hs', ?_, ?_, ?_⟩
  · rw [← hrs]
  · rw [← hrs]
  · rw [← hrs]

/-- C6 amended witness: concrete store, one record, truncation applied. -/
theorem C6_witness :
    ∃ s ∈ ([⟨"weaviate", "alpha", "p1"⟩] : List DocProps),
      ("weaviate" : String) = s.product ∧ ("p1" : String) = s.path ∧
      ("alpha..." : String) = String.mk (s.body.data.take 500 ++ ("..." : String).data) :=
  C6_truncated_body [⟨"weaviate", "alpha", "p1"⟩] 10 none ⟨"weaviate", "alpha...", "p1"⟩
    (by decide)

/-- `fetch_document` from `40_build_mcp.py` lines 156-174 (and
`fetch_document_resource_generic` in `serve_mcp.py` lines 303-321):
`fetch_objects` with an exact path filter and `limit=1`; an empty result
yields an explicit error value rather than an exception. -/
def fetch_document (store : List DocProps) (path : String) : Except String DocProps :=
  match (store.filter fun d => d.path = path).take 1 with
  | [] => Except.error ("Document not found at path: " ++ path)
  | d :: _ => Except.ok d

/-- C7: `fetch_document` is an exact, total lookup: if some indexed
Document has exactly the requested path it returns such a Document's full
record, and if none has it returns the explicit not-found value — in both
cases a value, never an exception. -/
theorem C7_fetch_document_exact (store : List DocProps) (path : String) :
    ((∃ d ∈ store, d.path = path) →
      ∃ d, fetch_document store path = Except.ok d ∧ d ∈ store ∧ d.path = path) ∧
    ((∀ d ∈ store, d.path ≠ path) →
      fetch_document store path
        = Except.error ("Document not found at path: " ++ path)) := by
  constructor
  · rintro ⟨d0, hd0, hp0⟩
    cases hfil : store.filter (fun d => d.path = path) with
    | nil =>
      have := (List.filter_eq_nil_iff.mp hfil) d0 hd0
      simp [hp0] at this
    | cons d rest =>
      have hd : d ∈ store.filter (fun d => d.path = path) := by
        rw [hfil]; exact List.mem_cons_self d rest
      rcases List.mem_filter.mp hd with ⟨hmem, hpath⟩
      refine ⟨d, ?_, hmem, by simpa using hpath⟩
      unfold fetch_document
      rw [hfil]
      rfl
  · intro hnone
    have hfil : store.filter (fun d => d.path = path) = [] := by
      apply List.filter_eq_nil_iff.mpr
      intro d hd
      simp [hnone d hd]
    unfold fetch_document
    rw [hfil]
    rfl

/-- C7 witness: a hit and a miss on a concrete two-document store. -/
theorem C7_witness :
    (∃ d, fetch_document [⟨"w", "bodyA", "pA"⟩, ⟨"q", "bodyB", "pB"⟩] "pB"
        = Except.ok d ∧ d ∈ [(⟨"w", "bodyA", "pA"⟩ : DocProps), ⟨"q", "bodyB", "pB"⟩]
        ∧ d.path = "pB") ∧
    fetch_document [⟨"w", "bodyA", "pA"⟩, ⟨"q", "bodyB", "pB"⟩] "missing"
        = Except.error ("Document not found at path: " ++ "missing") :=
  ⟨(C7_fetch_document_exact [⟨"w", "bodyA", "pA"⟩, ⟨"q", "bodyB", "pB"⟩] "pB").1
      ⟨⟨"q", "bodyB", "pB"⟩, by decide, rfl⟩,
   (C7_fetch_document_exact [⟨"w", "bodyA", "pA"⟩, ⟨"q", "bodyB", "pB"⟩] "missing").2
      (by decide)⟩

/-! C8: default limits.  In `serve_mcp.py` the FastMCP tools declare
`limit: int = 5` (lines 203, 240, 263, 281), so an invocation without an
explicit limit runs the generic search with limit 5; in `40_build_mcp.py`
the handlers use `arguments.get("limit", 10)` (lines 111, 134) and the tool
schema advertises `"default": 10` (lines 36-43, 60-65). -/

/-- A `serve_mcp.py` tool call without an explicit `limit` argument
(default parameter value 5). -/
def serve_search_chunks_no_limit (ranked : List ChunkProps)
    (product : Option String) : List ChunkProps :=
  search_chunks_generic ranked 5 product

/-- A `serve_mcp.py` `search_documents` call without an explicit `limit`
argument (default parameter value 5). -/
def serve_search_documents_no_limit (ranked : List DocProps)
    (product : Option String) : List DocProps :=
  search_documents_generic ranked 5 product

/-- A `40_build_mcp.py` `search_chunks` handler call; a missing `limit`
argument falls back to `arguments.get("limit", 10)`. -/
def build_search_chunks (ranked : List ChunkProps) (product : Option String)
    (limitArg : Option Nat) : List ChunkProps :=
  search_chunks_generic ranked (limitArg.getD 10) product

/-- A `40_build_mcp.py` `search_documents` handler call; a missing `limit`
argument falls back to `arguments.get("limit", 10)`. -/
def build_search_documents (ranked : List DocProps) (product : Option String)
    (limitArg : Option Nat) : List DocProps :=
  search_documents_generic ranked (limitArg.getD 10) product

/-- C8 (counterexample): invoking the `serve_mcp.py` search tools without a
limit does not behave like limit 10: on a 6-element result list the
no-limit call returns 5 records, the limit-10 call returns 6. -/
theorem C8_counterexample :
    serve_search_chunks_no_limit
        [⟨"w", "c0", 0, "p"⟩, ⟨"w", "c1", 1, "p"⟩, ⟨"w", "c2", 2, "p"⟩,
         ⟨"w", "c3", 3, "p"⟩, ⟨"w", "c4", 4, "p"⟩, ⟨"w", "c5", 5, "p"⟩] none
      ≠ search_chunks_generic
        [⟨"w", "c0", 0, "p"⟩, ⟨"w", "c1", 1, "p"⟩, ⟨"w", "c2", 2, "p"⟩,
         ⟨"w", "c3", 3, "p"⟩, ⟨"w", "c4", 4, "p"⟩, ⟨"w", "c5", 5, "p"⟩] 10 none := by
  decide

/-- C8 (amended): the `40_build_mcp.py` handlers default a missing limit to
10 and the `serve_mcp.py` FastMCP tools default it to 5; in every case at
most `limit` records are returned. -/
theorem C8_default_limits (ranked : List ChunkProps) (dranked : List DocProps)
    (product : Option String) :
    build_search_chunks ranked product none = search_chunks_generic ranked 10 product ∧
    (build_search_chunks ranked product none).length ≤ 10 ∧
    build_search_documents dranked product none
        = search_documents_generic dranked 10 product ∧
    (build_search_documents dranked product none).length ≤ 10 ∧
    serve_search_chunks_no_limit ranked product
        = search_chunks_generic ranked 5 product ∧
    (serve_search_chunks_no_limit ranked product).length ≤ 5 ∧
    serve_search_documents_no_limit dranked product
        = search_documents_generic dranked 5 product ∧
    (serve_search_documents_no_limit dranked product).length ≤ 5 ∧
    (∀ limit, (search_chunks_generic ranked limit product).length ≤ limit) ∧
    (∀ limit, (search_documents_generic dranked limit product).length ≤ limit) := by
  have hc : ∀ limit, (search_chunks_generic ranked limit product).length ≤ limit := by
    intro limit
    unfold search_chunks_generic hybrid_hits
    cases product with
    | none => exact List.length_take_le limit ranked
    | some p => exact List.length_take_le limit (ranked.filter fun r => r.product = p)
  have hd : ∀ limit, (search_documents_generic dranked limit product).length ≤ limit := by
    intro limit
    unfold search_documents_generic hybrid_hits
    cases product with
    | none => simp
    | some p => simp
  exact ⟨rfl, hc 10, rfl, hd 10, rfl, hc 5, rfl, hd 5, hc, hd⟩

/-! ### Snapshot files (`1_get_docs.py` line 97, `15_supplementary_crawl.py`
lines 153-161)

The file system is modelled as an association list from full paths to
snapshot dictionaries; writing a file overwrites an existing entry at that
path or creates one. -/

abbrev SnapshotData := List (String × String)

abbrev FileSys := List (String × SnapshotData)

def fs_write (fs : FileSys) (p : String) (v : SnapshotData) : FileSys :=
  if p ∈ fs.map Prod.fst then fs.map (fun e => if e.1 = p then (p, v) else e)
  else fs ++ [(p, v)]

def fs_read (fs : FileSys) (p : String) : Option SnapshotData :=
  (fs.find? fun e => decide (e.1 = p)).map Prod.snd

/-- The raw snapshot file name written by the crawler
(`1_get_docs.py` line 97: `f"{job['name']}_crawl4ai.json"`). -/
def raw_snapshot_name (job_name : String) : String :=
  job_name ++ "_crawl4ai.json"

/-- `dir / name` path join (`processed_docs_dir / input_file.name`). -/
def joinPath (dir name : String) : String := dir ++ "/" ++ name

/-- One iteration of `main` in `15_supplementary_crawl.py` (lines 153-161):
read the input snapshot, repair it with `process_file`, and write the
result to the processed directory under `input_file.name` — the input
file's own, unchanged, name. -/
def main_process_one (fetch : String → Option String)
    (crawledDir processedDir inputName : String) (fs : FileSys) : FileSys :=
  match fs_read fs (joinPath crawledDir inputName) with
  | none => fs
  | some data =>
    fs_write fs (joinPath processedDir inputName) (process_file fetch data).1

theorem fs_read_cons (e : String × SnapshotData) (rest : FileSys) (p : String) :
    fs_read (e :: rest) p = if e.1 = p then some e.2 else fs_read rest p := by
  by_cases h : e.1 = p
  · simp [fs_read, List.find?, h]
  · simp [fs_read, List.find?, h]

theorem fs_read_replace_ne {q p : String} (hqp : q ≠ p) (fs : FileSys) (v : SnapshotData) :
    fs_read (fs.map (fun e => if e.1 = p then (p, v) else e)) q = fs_read fs q := by
  induction fs with
  | nil => rfl
  | cons e rest ih =>
    rw [List.map_cons, fs_read_cons, fs_read_cons]
    by_cases he : e.1 = p
    · rw [if_pos he]
      have h1 : ¬((p, v).1 = q) := fun h => hqp h.symm
      have h2 : ¬(e.1 = q) := by rw [he]; exact fun h => hqp h.symm
      rw [if_neg h1, if_neg h2, ih]
    · rw [if_neg he]
      by_cases heq : e.1 = q
      · rw [if_pos heq, if_pos heq]
      · rw [if_neg heq, if_neg heq, ih]

theorem fs_read_append_ne {q p : String} (hqp : q ≠ p) (fs : FileSys) (v : SnapshotData) :
    fs_read (fs ++ [(p, v)]) q = fs_read fs q := by
  unfold fs_read
  rw [List.find?_append]
  have hone : List.find? (fun e => decide (e.1 = q)) [(p, v)] = none := by
    have hpq : ¬(p = q) := fun h => hqp h.symm
    simp [List.find?, hpq]
  rw [hone]
  cases hf : List.find? (fun e => decide (e.1 = q)) fs
  · rfl
  · rfl

theorem fs_read_replace_self {p : String} (v : SnapshotData) :
    ∀ fs : FileSys, p ∈ fs.map Prod.fst →
      fs_read (fs.map (fun e => if e.1 = p then (p, v) else e)) p = some v := by
  intro fs
  induction fs with
  | nil => intro h; cases h
  | cons e rest ih =>
    intro hmem
    rw [List.map_cons, fs_read_cons]
    by_cases he : e.1 = p
    · rw [if_pos he]
      simp
    · rw [if_neg he, if_neg he]
      apply ih
      rw [List.map_cons] at hmem
      rcases List.mem_cons.mp hmem with heq | h
      · exact absurd heq.symm he
      · exact h

theorem fs_read_write_ne {q p : String} (hqp : q ≠ p) (fs : FileSys) (v : SnapshotData) :
    fs_read (fs_write fs p v) q = fs_read fs q := by
  unfold fs_write
  by_cases hmem : p ∈ fs.map Prod.fst
  · rw [if_pos hmem]
    exact fs_read_replace_ne hqp fs v
  · rw [if_neg hmem]
    exact fs_read_append_ne hqp fs v

theorem fs_read_write_self (fs : FileSys) (p : String) (v : SnapshotData) :
    fs_read (fs_write fs p v) p = some v := by
  unfold fs_write
  by_cases hmem : p ∈ fs.map Prod.fst
  · rw [if_pos hmem]
    exact fs_read_replace_self v fs hmem
  · rw [if_neg hmem]
    unfold fs_read
    rw [List.find?_append]
    have hfs : (List.find? (fun e => decide (e.1 = p)) fs) = none := by
      rw [List.find?_eq_none]
      intro x hx
      simp only [decide_eq_true_eq]
      intro hx1
      exact hmem (List.mem_map.mpr ⟨x, hx, hx1⟩)
    rw [hfs]
    simp [List.find?]

theorem joinPath_ne_of_dir_ne {d1 d2 : String} (h : d1 ≠ d2) (n : String) :
    joinPath d1 n ≠ joinPath d2 n := by
  intro he
  apply h
  have hd : (d1 ++ "/" ++ n).data = (d2 ++ "/" ++ n).data := congrArg String.data he
  rw [String.data_append, String.data_append, String.data_append,
    String.data_append] at hd
  have h1 := List.append_cancel_right hd
  have h2 := List.append_cancel_right h1
  exact string_data_inj h2

/-- C9 (counterexample): for the raw snapshot `weaviate_docs_crawl4ai.json`,
the repair stage writes `processed_docs/weaviate_docs_crawl4ai.json` — the
input file's own name — and no file named `weaviate_docs.json` exists in
the processed directory. -/
theorem C9_counterexample :
    fs_read
        (main_process_one (fun _ => none) "crawled_docs" "processed_docs"
          (raw_snapshot_name "weaviate_docs")
          [(joinPath "crawled_docs" (raw_snapshot_name "weaviate_docs"), [])])
        (joinPath "processed_docs" "weaviate_docs.json") = none ∧
    fs_read
        (main_process_one (fun _ => none) "crawled_docs" "processed_docs"
          (raw_snapshot_name "weaviate_docs")
          [(joinPath "crawled_docs" (raw_snapshot_name "weaviate_docs"), [])])
        (joinPath "processed_docs" (raw_snapshot_name "weaviate_docs"))
      = some [] := by
  decide

/-- C9 (amended): the repair stage writes its output to the separate
processed directory under the input file's own raw name
`<job_name>_crawl4ai.json` (it does not strip the `_crawl4ai` suffix), and
every other path — in particular the input snapshot in the crawled
directory — is left untouched. -/
theorem C9_output_location (fetch : String → Option String)
    (crawledDir processedDir jobName : String) (data : SnapshotData)
    (fs : FileSys) (hdir : crawledDir ≠ processedDir)
    (hin : fs_read fs (joinPath crawledDir (raw_snapshot_name jobName)) = some data) :
    fs_read
        (main_process_one fetch crawledDir processedDir (raw_snapshot_name jobName) fs)
        (joinPath crawledDir (raw_snapshot_name jobName)) = some data ∧
    fs_read
        (main_process_one fetch crawledDir processedDir (raw_snapshot_name jobName) fs)
        (joinPath processedDir (raw_snapshot_name jobName))
      = some (process_file fetch data).1 ∧
    (∀ p, p ≠ joinPath processedDir (raw_snapshot_name jobName) →
      fs_read
          (main_process_one fetch crawledDir processedDir (raw_snapshot_name jobName) fs)
          p = fs_read fs p) := by
  have hmain : main_process_one fetch crawledDir processedDir (raw_snapshot_name jobName) fs
      = fs_write fs (joinPath processedDir (raw_snapshot_name jobName))
          (process_file fetch data).1 := by
    unfold main_process_one
    rw [hin]
  have hframe : ∀ p, p ≠ joinPath processedDir (raw_snapshot_name jobName) →
      fs_read
          (main_process_one fetch crawledDir processedDir (raw_snapshot_name jobName) fs)
          p = fs_read fs p := by
    intro p hp
    rw [hmain]
    exact fs_read_write_ne hp fs _
  refine ⟨?_, ?_, hframe⟩
  · rw [hframe _ (joinPath_ne_of_dir_ne hdir _), hin]
  · rw [hmain]
    exact fs_read_write_self fs _ _

/-- C9 amended witness: a concrete crawled snapshot with one clean page. -/
theorem C9_witness :
    fs_read
        (main_process_one (fun _ => none) "crawled_docs" "processed_docs"
          (raw_snapshot_name "qdrant_docs")
          [(joinPath "crawled_docs" (raw_snapshot_name "qdrant_docs"),
            [("https://qdrant.tech/documentation/",
              "This page has plenty of perfectly ordinary documentation text in it.")])])
        (joinPath "crawled_docs" (raw_snapshot_name "qdrant_docs"))
      = some [("https://qdrant.tech/documentation/",
          "This page has plenty of perfectly ordinary documentation text in it.")] ∧
    fs_read
        (main_process_one (fun _ => none) "crawled_docs" "processed_docs"
          (raw_snapshot_name "qdrant_docs")
          [(joinPath "crawled_docs" (raw_snapshot_name "qdrant_docs"),
            [("https://qdrant.tech/documentation/",
              "This page has plenty of perfectly ordinary documentation text in it.")])])
        (joinPath "processed_docs" (raw_snapshot_name "qdrant_docs"))
      = some (process_file (fun _ => none)
          [("https://qdrant.tech/documentation/",
            "This page has plenty of perfectly ordinary documentation text in it.")]).1 ∧
    (∀ p, p ≠ joinPath "processed_docs" (raw_snapshot_name "qdrant_docs") →
      fs_read
          (main_process_one (fun _ => none) "crawled_docs" "processed_docs"
            (raw_snapshot_name "qdrant_docs")
            [(joinPath "crawled_docs" (raw_snapshot_name "qdrant_docs"),
              [("https://qdrant.tech/documentation/",
                "This page has plenty of perfectly ordinary documentation text in it.")])])
          p
        = fs_read
            [(joinPath "crawled_docs" (raw_snapshot_name "qdrant_docs"),
              [("https://qdrant.tech/documentation/",
                "This page has plenty of perfectly ordinary documentation text in it.")])]
            p) :=
  C9_output_location (fun _ => none) "crawled_docs" "processed_docs" "qdrant_docs"
    [("https://qdrant.tech/documentation/",
      "This page has plenty of perfectly ordinary documentation text in it.")]
    [(joinPath "crawled_docs" (raw_snapshot_name "qdrant_docs"),
      [("https://qdrant.tech/documentation/",
        "This page has plenty of perfectly ordinary documentation text in it.")])]
    (by decide) (by decide)

/-! ### The 512/128 sliding-window chunker (`2_index_docs.py` lines 14-18)

`2_index_docs.py` only configures the external chonkie `TokenChunker`
(`tokenizer="word"`, `chunk_size=512`, `chunk_overlap=128`); the windowing
algorithm itself is library code, so it is modelled from the spec. -/

/-- Modelled from the spec: the external chonkie `TokenChunker` as
configured in `2_index_docs.py` — a deterministic sliding window over the
word-level token stream producing 512-token windows, consecutive windows
overlapping in 128 tokens (so the stride is 384), the final window holding
whatever remains.  Fuel-driven (`fuel ≥ number of tokens` suffices) so that
it evaluates by `decide`. -/
def token_windows_aux {α : Type} : Nat → List α → List (List α)
  | _, [] => []
  | 0, ts => [ts]
  | fuel + 1, ts =>
    if ts.length ≤ 512 then [ts]
    else ts.take 512 :: token_windows_aux fuel (ts.drop 384)

/-- Modelled from the spec: the chunker applied to a document's token
stream. -/
def token_windows {α : Type} (ts : List α) : List (List α) :=
  token_windows_aux ts.length ts

/-- Concatenation of chunk texts after removing the 128-token overlap from
every chunk (used for all chunks but the first). -/
def dropOverlapConcat {α : Type} : List (List α) → List α
  | [] => []
  | c :: cs => c.drop 128 ++ dropOverlapConcat cs

/-- Ordered concatenation of the chunks' token streams, removing the
128-token overlap from every chunk but the first. -/
def reassemble {α : Type} : List (List α) → List α
  | [] => []
  | c :: cs => c ++ dropOverlapConcat cs

/-- Exactly 128 tokens of overlap between each pair of consecutive windows:
every non-final window has exactly 512 tokens and its last 128 tokens are
the first 128 tokens of the next window. -/
def overlap128 {α : Type} : List (List α) → Prop
  | [] => True
  | [_] => True
  | a :: b :: rest => a.length = 512 ∧ a.drop 384 = b.take 128 ∧ overlap128 (b :: rest)

theorem token_windows_aux_cons_eq {α : Type} (fuel : Nat) (ts : List α)
    (hne : ts ≠ []) :
    token_windows_aux (fuel + 1) ts =
      if ts.length ≤ 512 then [ts]
      else ts.take 512 :: token_windows_aux fuel (ts.drop 384) := by
  cases ts with
  | nil => exact absurd rfl hne
  | cons x xs => rfl

theorem token_windows_aux_dropOverlap {α : Type} (fuel : Nat) :
    ∀ ts : List α, ts.length ≤ fuel →
      dropOverlapConcat (token_windows_aux fuel ts) = ts.drop 128 := by
  induction fuel with
  | zero =>
    intro ts h
    have hnil : ts = [] := List.length_eq_zero.mp (Nat.le_zero.mp h)
    subst hnil
    rfl
  | succ fuel ih =>
    intro ts h
    cases ts with
    | nil => rfl
    | cons x xs =>
      rw [token_windows_aux_cons_eq fuel _ (List.cons_ne_nil x xs)]
      by_cases h512 : (x :: xs).length ≤ 512
      · rw [if_pos h512]
        simp only [dropOverlapConcat, List.append_nil]
      · rw [if_neg h512]
        have hrec : ((x :: xs).drop 384).length ≤ fuel := by
          rw [List.length_drop]
          omega
        simp only [dropOverlapConcat]
        rw [ih _ hrec, List.drop_drop,
          show (384 + 128 : Nat) = 512 from rfl, List.drop_take,
          show (512 - 128 : Nat) = 384 from rfl]
        have hsplit : (x :: xs).drop 512 = ((x :: xs).drop 128).drop 384 := by
          rw [List.drop_drop]
        rw [hsplit, List.take_append_drop]

theorem token_windows_aux_reassemble {α : Type} (fuel : Nat) (ts : List α)
    (h : ts.length ≤ fuel) : reassemble (token_windows_aux fuel ts) = ts := by
  cases fuel with
  | zero =>
    have hnil : ts = [] := List.length_eq_zero.mp (Nat.le_zero.mp h)
    subst hnil
    rfl
  | succ fuel =>
    cases ts with
    | nil => rfl
    | cons x xs =>
      rw [token_windows_aux_cons_eq fuel _ (List.cons_ne_nil x xs)]
      by_cases h512 : (x :: xs).length ≤ 512
      · rw [if_pos h512]
        simp only [reassemble, dropOverlapConcat, List.append_nil]
      · rw [if_neg h512]
        have hrec : ((x :: xs).drop 384).length ≤ fuel := by
          rw [List.length_drop]
          omega
        simp only [reassemble]
        rw [token_windows_aux_dropOverlap fuel _ hrec, List.drop_drop,
          show (384 + 128 : Nat) = 512 from rfl]
        exact List.take_append_drop 512 (x :: xs)

theorem token_windows_aux_sizes {α : Type} (fuel : Nat) :
    ∀ ts : List α, ts.length ≤ fuel →
      ∀ c ∈ token_windows_aux fuel ts, c.length ≤ 512 := by
  induction fuel with
  | zero =>
    intro ts h c hc
    have hnil : ts = [] := List.length_eq_zero.mp (Nat.le_zero.mp h)
    subst hnil
    cases hc
  | succ fuel ih =>
    intro ts h c hc
    cases ts with
    | nil => cases hc
    | cons x xs =>
      rw [token_windows_aux_cons_eq fuel _ (List.cons_ne_nil x xs)] at hc
      by_cases h512 : (x :: xs).length ≤ 512
      · rw [if_pos h512, List.mem_singleton] at hc
        subst hc
        exact h512
      · rw [if_neg h512] at hc
        have hrec : ((x :: xs).drop 384).length ≤ fuel := by
          rw [List.length_drop]
          omega
        rcases List.mem_cons.mp hc with hc | hc
        · subst hc
          rw [List.length_take]
          exact min_le_left _ _
        · exact ih _ hrec c hc

theorem token_windows_aux_head_take {α : Type} (fuel : Nat) (ts : List α)
    (h : ts.length ≤ fuel) (hne : ts ≠ []) :
    ∃ b rest, token_windows_aux fuel ts = b :: rest ∧ b.take 128 = ts.take 128 := by
  cases fuel with
  | zero =>
    have hnil : ts = [] := List.length_eq_zero.mp (Nat.le_zero.mp h)
    exact absurd hnil hne
  | succ fuel =>
    rw [token_windows_aux_cons_eq fuel _ hne]
    by_cases h512 : ts.length ≤ 512
    · rw [if_pos h512]
      exact ⟨ts, [], rfl, rfl⟩
    · rw [if_neg h512]
      refine ⟨ts.take 512, token_windows_aux fuel (ts.drop 384), rfl, ?_⟩
      rw [List.take_take, show (128 ⊓ 512 : Nat) = 128 from rfl]

theorem token_windows_aux_overlap {α : Type} (fuel : Nat) :
    ∀ ts : List α, ts.length ≤ fuel → overlap128 (token_windows_aux fuel ts) := by
  induction fuel with
  | zero =>
    intro ts h
    have hnil : ts = [] := List.length_eq_zero.mp (Nat.le_zero.mp h)
    subst hnil
    trivial
  | succ fuel ih =>
    intro ts h
    cases ts with
    | nil => trivial
    | cons x xs =>
      rw [token_windows_aux_cons_eq fuel _ (List.cons_ne_nil x xs)]
      by_cases h512 : (x :: xs).length ≤ 512
      · rw [if_pos h512]
        trivial
      · rw [if_neg h512]
        have hlen : 512 < (x :: xs).length := by omega
        have hrec : ((x :: xs).drop 384).length ≤ fuel := by
          rw [List.length_drop]
          omega
        have hne : (x :: xs).drop 384 ≠ [] := by
          intro hd
          have hl := List.length_drop 384 (x :: xs)
          rw [hd] at hl
          simp only [List.length_nil] at hl
          omega
        rcases token_windows_aux_head_take fuel _ hrec hne with ⟨b, rest, heq, hbtake⟩
        rw [heq]
        refine ⟨?_, ?_, ?_⟩
        · rw [List.length_take]
          exact min_eq_left (by omega)
        · rw [List.drop_take, show (512 - 384 : Nat) = 128 from rfl]
          exact hbtake.symm
        · have hov := ih _ hrec
          rw [heq] at hov
          exact hov

/-- C5: for every document token stream, every window holds at most 512
tokens, consecutive windows overlap in exactly 128 tokens (each non-final
window has 512 tokens whose last 128 are the next window's first 128), and
concatenating the windows in order while removing the 128-token overlap
from every window but the first reconstructs the original token stream with
no token dropped at any boundary. -/
theorem C5_sliding_window (toks : List String) :
    (∀ c ∈ token_windows toks, c.length ≤ 512) ∧
    overlap128 (token_windows toks) ∧
    reassemble (token_windows toks) = toks :=
  ⟨token_windows_aux_sizes toks.length toks le_rfl,
   token_windows_aux_overlap toks.length toks le_rfl,
   token_windows_aux_reassemble toks.length toks le_rfl⟩

/-- C5 witness: a concrete short stream forms a single window that
reassembles to itself. -/
theorem C5_witness :
    (["alpha", "beta"] : List String) ∈ token_windows ["alpha", "beta"] ∧
    (["alpha", "beta"] : List String).length ≤ 512 ∧
    reassemble (token_windows ["alpha", "beta"]) = ["alpha", "beta"] := by
  have h := C5_sliding_window ["alpha", "beta"]
  have hmem : (["alpha", "beta"] : List String) ∈ token_windows ["alpha", "beta"] := by
    decide
  exact ⟨hmem, h.1 _ hmem, h.2.2⟩

end DocsMcp
